import Mathlib

/-!
Shallow embedding of the brioche blob store (`crates/brioche-core/src/blob.rs`)
and project loader (`src/brioche/project.rs`), together with proofs of the
specification claims about them.

Conventions of the embedding:
* Byte strings are `List (Fin 256)`; strings are `List Char`; paths are lists
  of path components.
* The ambient filesystem and SQLite alias table are an explicit `Store` value
  threaded through each operation.
* External collaborators (the `blake3` and `sha256` hash functions, the
  current clock and the registry client) are fields of the `Brioche` context;
  theorems quantify over them.
* Async staging through `blobs-temp` plus `rename` is collapsed to its net
  effect of installing the finished file at the target path; crash states are
  out of scope.
-/

set_option autoImplicit false

namespace Brioche

abbrev Byte := Fin 256

abbrev Bytes := List Byte

abbrev Str := List Char

abbrev Path := List Str

/-! ## Hex encoding (the `hex` crate / `blake3::Hash::to_hex` and `from_hex`) -/

/-- Lowercase hex digit for a value below 16: codepoint 48 is `0`, 97 is `a`. -/
def hexDigit (n : Nat) : Char := Char.ofNat (if n < 10 then 48 + n else 87 + n)

def hexByte (b : Byte) : List Char := [hexDigit (b.val / 16), hexDigit (b.val % 16)]

def hexEncode (bs : Bytes) : Str := (bs.map hexByte).flatten

/-- Value of a lowercase hex digit, by codepoint arithmetic. -/
def hexVal (c : Char) : Option (Fin 16) :=
  let n := c.toNat
  if hd : 48 ≤ n ∧ n ≤ 57 then some ⟨n - 48, by omega⟩
  else if hl : 97 ≤ n ∧ n ≤ 102 then some ⟨n - 97 + 10, by omega⟩
  else none

def hexDecode : Str → Option Bytes
  | [] => some []
  | [_] => none
  | c1 :: c2 :: rest =>
    match hexVal c1, hexVal c2, hexDecode rest with
    | some hi, some lo, some bs =>
      some (⟨hi.val * 16 + lo.val, by have := hi.isLt; have := lo.isLt; omega⟩ :: bs)
    | _, _, _ => none

/-! ## Hashes

`BlobHash` wraps a BLAKE3 digest (`blob.rs`, `pub struct BlobHash(blake3::Hash)`).
`Hash` is the validation hash. Modelled from the spec: the `Hash` enum and
`Hasher` live outside the provided sources; per the spec it is "a tagged union
of supported algorithms (at minimum SHA-256)" whose hasher "streams bytes and
produces a `Hash` of the same variant", displayed as e.g. `"sha256:…"`. -/

inductive HashAlg where
  | sha256
deriving DecidableEq, Repr

structure Hash where
  alg : HashAlg
  digest : Bytes
deriving DecidableEq, Repr

def Hash.toStr (h : Hash) : Str :=
  match h.alg with
  | .sha256 => "sha256:".toList ++ hexEncode h.digest

structure BlobHash where
  hash : Bytes
deriving DecidableEq, Repr

/-- Display of a `BlobHash`: lowercase hex of the digest (`self.0.to_hex()`). -/
def BlobHash.toStr (bh : BlobHash) : Str := hexEncode bh.hash

/-- Parsing of a `BlobHash` (`blake3::Hash::from_hex`): exactly 64 hex chars. -/
def BlobHash.fromStr (s : Str) : Except Str BlobHash :=
  if s.length = 64 then
    match hexDecode s with
    | some bs => .ok ⟨bs⟩
    | none => .error "invalid hex".toList
  else
    .error "invalid hash length".toList

/-! ## The store context and the explicit state -/

/-- Context handle (`Brioche` struct): home directory, repo directory, plus the
external collaborators — the hash functions of the `blake3` / `sha2` crates,
the clock (mtimes given to freshly written files), and the registry client's
`get_blob`. -/
structure BriocheCtx where
  home : Path
  repoDir : Path
  blake3 : Bytes → Bytes
  sha256 : Bytes → Bytes
  now : Nat
  getBlob : Bytes → Except Str Bytes

/-- Digest produced by the validation `Hasher::for_hash` for a given variant. -/
def validationDigest (br : BriocheCtx) (alg : HashAlg) (b : Bytes) : Bytes :=
  match alg with
  | .sha256 => br.sha256 b

/-- Metadata-carrying file as stored on disk. -/
structure FileSt where
  content : Bytes
  mode : Nat
  mtime : Nat
  nlink : Nat
deriving DecidableEq, Repr

/-- Explicit state: the filesystem (association list keyed by path) and the
`blob_aliases` SQLite table (association list keyed by the TEXT hash). -/
structure Store where
  files : List (Path × FileSt)
  aliases : List (Str × Str)
deriving DecidableEq, Repr

def lookupFile : List (Path × FileSt) → Path → Option FileSt
  | [], _ => none
  | (q, f) :: rest, p => if q = p then some f else lookupFile rest p

/-- Create or overwrite the file at path `p`. -/
def setFile : List (Path × FileSt) → Path → FileSt → List (Path × FileSt)
  | [], p, f => [(p, f)]
  | (q, g) :: rest, p, f => if q = p then (p, f) :: rest else (q, g) :: setFile rest p f

/-- Remove the file at path `p` (`tokio::fs::remove_file`). -/
def dropFile (files : List (Path × FileSt)) (p : Path) : List (Path × FileSt) :=
  files.filter (fun e => decide (e.1 ≠ p))

def lookupAlias : List (Str × Str) → Str → Option Str
  | [], _ => none
  | (k, v) :: rest, key => if k = key then some v else lookupAlias rest key

/-- `INSERT INTO blob_aliases … ON CONFLICT (hash) DO UPDATE SET blob_hash = ?`:
the row for `k` ends up mapping to `v`, all other rows unchanged. -/
def upsertAlias (al : List (Str × Str)) (k v : Str) : List (Str × Str) :=
  match al with
  | [] => [(k, v)]
  | (k0, v0) :: rest => if k0 = k then (k, v) :: rest else (k0, v0) :: upsertAlias rest k v

/-! ## Blob-store constants and paths -/

/-- Modelled from the spec: `fs_utils::brioche_epoch` is a fixed epoch constant,
"a value like 2000-01-01T00:00:00Z is conventional" (as a Unix timestamp). -/
def briocheEpoch : Nat := 946684800

def blob_permissions : Nat := 0o444

/-- File produced by the shared temp-write protocol: the given content with
canonical permissions, the epoch mtime and a single hardlink. -/
def canonicalFile (b : Bytes) : FileSt := ⟨b, blob_permissions, briocheEpoch, 1⟩

def is_file_exclusive (f : FileSt) : Bool := f.nlink = 1

/-- On-disk path of a blob: `<home>/blobs/<hex(hash)>` (`local_blob_path`). -/
def local_blob_path (br : BriocheCtx) (blob_hash : BlobHash) : Path :=
  br.home ++ ["blobs".toList, hexEncode blob_hash.hash]

def BlobHash.for_content (br : BriocheCtx) (content : Bytes) : BlobHash :=
  ⟨br.blake3 content⟩

/-- Options for the save functions. The `on_progress` callback is omitted from
the model: it only reports byte counts to the caller. -/
structure SaveBlobOptions where
  expected_hash : Option Hash := none
  remove_input : Bool := false

/-! ## Saving blobs

Each save function computes the BLAKE3 hash of the content while (if an
expected hash was supplied) feeding the validation hasher; on a validation
mismatch it bails before touching the database or the blob directory, and on a
match it upserts `(expected_hash → blob_hash)` into `blob_aliases`. The
validation/alias step is textually identical in all three variants of
`blob.rs`, so it is shared here. -/

def checkExpectedAndAlias (br : BriocheCtx) (s : Store) (options : SaveBlobOptions)
    (bytes : Bytes) (blob_hash : BlobHash) : Except Str Store :=
  match options.expected_hash with
  | none => .ok s
  | some expected =>
    let actual : Hash := ⟨expected.alg, validationDigest br expected.alg bytes⟩
    if expected = actual then
      .ok { s with aliases := upsertAlias s.aliases expected.toStr blob_hash.toStr }
    else
      .error ("expected hash ".toList ++ expected.toStr ++ " but got ".toList ++ actual.toStr)

/-- Model of `save_blob`: hash the in-memory bytes, validate/alias, then if the
target `<home>/blobs/<hex>` already exists return at once; otherwise write a
temp file with mode `0o444` and the epoch mtime and rename it into place
(collapsed to installing the finished file at the target). -/
def save_blob (br : BriocheCtx) (s : Store) (bytes : Bytes) (options : SaveBlobOptions) :
    Store × Except Str BlobHash :=
  let blob_hash := BlobHash.for_content br bytes
  let target := local_blob_path br blob_hash
  match checkExpectedAndAlias br s options bytes blob_hash with
  | .error e => (s, .error e)
  | .ok s1 =>
    if (lookupFile s1.files target).isSome then
      (s1, .ok blob_hash)
    else
      ({ s1 with files := setFile s1.files target ⟨bytes, blob_permissions, briocheEpoch, 1⟩ },
        .ok blob_hash)

/-- Model of `save_blob_from_reader`: refuses `remove_input`, streams the
reader (modelled as the full byte sequence read) into a temp file while
hashing, validates/aliases, then renames the canonical temp file over the
target unconditionally — this variant has no existence check. -/
def save_blob_from_reader (br : BriocheCtx) (s : Store) (input : Bytes)
    (options : SaveBlobOptions) : Store × Except Str BlobHash :=
  if options.remove_input then
    (s, .error "cannot remove input from reader".toList)
  else
    let blob_hash := BlobHash.for_content br input
    let target := local_blob_path br blob_hash
    match checkExpectedAndAlias br s options input blob_hash with
    | .error e => (s, .error e)
    | .ok s1 =>
      ({ s1 with files := setFile s1.files target ⟨input, blob_permissions, briocheEpoch, 1⟩ },
        .ok blob_hash)

/-- Filesystem mutations performed by `save_blob_from_file`, recorded as a
trace so that frame conditions (what was chmodded, moved, copied, removed)
can be stated directly. -/
inductive FsAction where
  | chmod (p : Path) (mode : Nat)
  | setMtime (p : Path) (t : Nat)
  | moveFile (src dst : Path)
  | copyFile (src dst : Path)
  | removeInput (p : Path)
deriving DecidableEq, Repr

/-- Model of `save_blob_from_file`. After hashing the input file's contents and
validating/aliasing, there are three branches, mirroring `blob.rs`:

* the blob file already exists: optionally remove the input, then refresh the
  existing blob's permissions and mtime to the canonical values;
* `options.remove_input` and the input has `nlink == 1`: chmod the input in
  place to `0o444`, set its mtime to the epoch, and move it to the blob path;
* otherwise: `atomic_copy` the input to the blob path (the fresh copy's mtime
  is the current clock `br.now`), chmod the blob path to `0o444`, then set the
  mtime of `input_path` — not the blob — to the epoch (this is what the code
  does), and finally remove the input if requested.

Modelled from the spec where `fs_utils` is not in the sources: `move_file` is
a rename (or copy+unlink) leaving one file, `atomic_copy` writes a fresh copy
via a temp file, `set_mtime_to_brioche_epoch p` sets the mtime of `p`. -/
def save_blob_from_file (br : BriocheCtx) (s : Store) (input_path : Path)
    (options : SaveBlobOptions) : Store × List FsAction × Except Str BlobHash :=
  match lookupFile s.files input_path with
  | none => (s, [], .error "failed to open input file".toList)
  | some input_file =>
    let bytes := input_file.content
    let blob_hash := BlobHash.for_content br bytes
    let target := local_blob_path br blob_hash
    match checkExpectedAndAlias br s options bytes blob_hash with
    | .error e => (s, [], .error e)
    | .ok s1 =>
      match lookupFile s1.files target with
      | some existing =>
        let s2 := if options.remove_input then
            { s1 with files := dropFile s1.files input_path }
          else s1
        let refreshed : FileSt := { existing with mode := blob_permissions, mtime := briocheEpoch }
        let s3 := { s2 with files := setFile s2.files target refreshed }
        let tr := (if options.remove_input then [FsAction.removeInput input_path] else []) ++
          [FsAction.chmod target blob_permissions, FsAction.setMtime target briocheEpoch]
        (s3, tr, .ok blob_hash)
      | none =>
        if options.remove_input && is_file_exclusive input_file then
          let moved : FileSt := { input_file with mode := blob_permissions, mtime := briocheEpoch }
          let s2 := { s1 with files := setFile (dropFile s1.files input_path) target moved }
          (s2, [FsAction.chmod input_path blob_permissions,
                FsAction.setMtime input_path briocheEpoch,
                FsAction.moveFile input_path target], .ok blob_hash)
        else
          let copied : FileSt := ⟨bytes, blob_permissions, br.now, 1⟩
          let s2 := { s1 with files := setFile s1.files target copied }
          let touched : FileSt := { input_file with mtime := briocheEpoch }
          let s3 := { s2 with files := setFile s2.files input_path touched }
          let s4 := if options.remove_input then
              { s3 with files := dropFile s3.files input_path }
            else s3
          let tr := [FsAction.copyFile input_path target,
              FsAction.chmod target blob_permissions,
              FsAction.setMtime input_path briocheEpoch] ++
            (if options.remove_input then [FsAction.removeInput input_path] else [])
          (s4, tr, .ok blob_hash)

/-- Model of `find_blob`: look the TEXT form of the hash up in `blob_aliases`
and parse the stored `blob_hash` column back into a `BlobHash`. -/
def find_blob (s : Store) (hash : Hash) : Except Str (Option BlobHash) :=
  match lookupAlias s.aliases hash.toStr with
  | none => .ok none
  | some row =>
    match BlobHash.fromStr row with
    | .ok bh => .ok (some bh)
    | .error e => .error e

/-- Model of `blob_path`: return the local path if the blob exists, otherwise
fetch the bytes from the registry client and install them at the local path
(temp write with canonical permissions/mtime, then rename), with no
verification of the fetched bytes against `blob_hash`. -/
def blob_path (br : BriocheCtx) (s : Store) (blob_hash : BlobHash) :
    Store × Except Str Path :=
  let local_path := local_blob_path br blob_hash
  if (lookupFile s.files local_path).isSome then
    (s, .ok local_path)
  else
    match br.getBlob blob_hash.hash with
    | .error e => (s, .error e)
    | .ok blob =>
      ({ s with files := setFile s.files local_path ⟨blob, blob_permissions, briocheEpoch, 1⟩ },
        .ok local_path)

/-! ## Project loading (`src/brioche/project.rs`)

The filesystem, as seen by the loader, is a pair of functions: `canon`
(`tokio::fs::canonicalize`; `none` is an error) and `readDef` (reading and
TOML-parsing `<dir>/brioche.toml`; `none` is an error). A `HashMap` of
dependencies is an association list in its iteration order. `anyhow`'s
`with_context` is modelled as prepending the context message to the error. -/

inductive Version where
  | any
deriving DecidableEq, Repr

inductive DependencyDefinition where
  | path (path : Path)
  | version (v : Version)
deriving DecidableEq, Repr

structure ProjectDefinition where
  dependencies : List (Str × DependencyDefinition)
deriving DecidableEq, Repr

inductive Project where
  | mk (local_path : Path) (dependencies : List (Str × Project))
deriving Repr

def Project.local_path : Project → Path
  | .mk p _ => p

def Project.dependencies : Project → List (Str × Project)
  | .mk _ d => d

structure ProjFs where
  canon : Path → Option Path
  readDef : Path → Option ProjectDefinition

/-- Dependency-name check, `regex "^[a-zA-Z0-9_]+$"`. -/
def nameOk (name : Str) : Bool :=
  !name.isEmpty && name.all (fun c => c.isAlpha || c.isDigit || c == '_')

def depthExceededMsg : Str := "project dependency depth exceeded".toList

/-- Prepend an `anyhow` context layer to an error message. -/
def withCtx (ctx : Str) (e : Str) : Str := ctx ++ ": ".toList ++ e

mutual

/-- Model of `resolve_project_depth`: canonicalize the path, read and parse
`brioche.toml`, then resolve each dependency in iteration order. -/
def resolve_project_depth (br : BriocheCtx) (fs : ProjFs) (path : Path) (depth : Nat) :
    Except Str Project :=
  match fs.canon path with
  | none => .error "failed to canonicalize path".toList
  | some cpath =>
    match fs.readDef cpath with
    | none => .error "failed to read project definition".toList
    | some pd =>
      match resolveDeps br fs cpath pd.dependencies depth with
      | .error e => .error e
      | .ok deps => .ok (Project.mk cpath deps)
termination_by (depth, 1, 0)

/-- The dependency loop of `resolve_project_depth`: for each `(name, def)`
check the name against the regex, compute `dep_depth = depth.checked_sub(1)`
(failing with the depth-exceeded error when `depth` is `0`), resolve the
dependency at `dep_depth`, and continue with the remaining entries at the
original `depth`. -/
def resolveDeps (br : BriocheCtx) (fs : ProjFs) (base : Path)
    (deps : List (Str × DependencyDefinition)) (depth : Nat) :
    Except Str (List (Str × Project)) :=
  match deps with
  | [] => .ok []
  | (name, dependency_def) :: rest =>
    if nameOk name then
      match depth with
      | 0 => .error depthExceededMsg
      | d + 1 =>
        let dep_path := match dependency_def with
          | .path subpath => base ++ subpath
          | .version .any => br.repoDir ++ [name]
        let ctx := match dependency_def with
          | .path _ => "failed to resolve path dependency"
          | .version .any => "failed to resolve repo dependency"
        match resolve_project_depth br fs dep_path d with
        | .error e => .error (withCtx ctx.toList e)
        | .ok dependency =>
          match resolveDeps br fs base rest (d + 1) with
          | .error e => .error e
          | .ok restResolved => .ok ((name, dependency) :: restResolved)
    else
      .error "invalid dependency name".toList
termination_by (depth, 0, deps.length)

end

/-- Model of `resolve_project`: a fixed recursion budget of 100. -/
def resolve_project (br : BriocheCtx) (fs : ProjFs) (path : Path) : Except Str Project :=
  resolve_project_depth br fs path 100

/-- Model of `find_project_root` (and the identical `find_project_root_sync`):
walk from `path` upward, one parent at a time, returning the first candidate
directory that contains `brioche.toml`. The ambient filesystem is the
predicate `ex` telling which paths exist; a parent of a path is obtained by
dropping its last component, and the empty path has no parent. -/
def find_project_root (ex : Path → Bool) : Path → Except Str Path
  | [] =>
    if ex ([] ++ ["brioche.toml".toList]) then .ok []
    else .error "project root not found".toList
  | head :: rest =>
    if ex ((head :: rest) ++ ["brioche.toml".toList]) then .ok (head :: rest)
    else find_project_root ex (head :: rest).dropLast
termination_by p => p.length
decreasing_by
  simp [List.length_dropLast]

/-! ## Concrete instances used to witness the theorems -/

/-- Concrete context: empty home and repo dir, identity stand-ins for the hash
functions, clock at 1, registry returning `[7]` for every request. -/
def testCtx : BriocheCtx where
  home := []
  repoDir := []
  blake3 := fun b => b
  sha256 := fun b => b
  now := 1
  getBlob := fun _ => .ok [7]

/-- Concrete empty store. -/
def testStore : Store := ⟨[], []⟩

/-- Concrete store whose blob file for content `[5]` is already present, but
with non-canonical permissions (`0o644`) and mtime (`0`). -/
def preStore : Store := ⟨[(local_blob_path testCtx ⟨[5]⟩, ⟨[5], 0o644, 0, 1⟩)], []⟩

/-- Concrete input path for `save_blob_from_file` runs. -/
def inPath : Path := ["in".toList]

/-- Concrete store with a single regular input file (content `[5]`, mode
`0o644`, mtime `7`, one hardlink) and no blobs. -/
def inStore : Store := ⟨[(inPath, ⟨[5], 0o644, 7, 1⟩)], []⟩

/-- Concrete store with an input file that has a second hardlink (`nlink = 2`)
and whose blob file already exists in canonical form. -/
def hardStore : Store :=
  ⟨[(inPath, ⟨[5], 0o600, 7, 2⟩),
    (local_blob_path testCtx ⟨[5]⟩, ⟨[5], 0o444, briocheEpoch, 1⟩)], []⟩

/-- Concrete store with an input file that has a second hardlink (`nlink = 2`)
and no blobs. -/
def linkStore : Store := ⟨[(inPath, ⟨[5], 0o600, 7, 2⟩)], []⟩

/-- Store invariant at one address: whatever file sits at the blob path for
content `b` (if any) holds exactly the bytes `b`. This is the content-
addressing invariant every save of `b` establishes and preserves. -/
def goodAt (br : BriocheCtx) (s : Store) (b : Bytes) : Prop :=
  ∀ f, lookupFile s.files (local_blob_path br (BlobHash.for_content br b)) = some f →
    f.content = b

/-- Concrete cyclic project world: every directory canonicalizes to itself and
contains a `brioche.toml` declaring a single path dependency `a` on the
directory itself. -/
def cycFs : ProjFs where
  canon := fun p => some p
  readDef := fun _ => some ⟨[(['a'], DependencyDefinition.path [])]⟩

/-! ## Helper lemmas about the save functions -/

theorem hexVal_hexDigit (n : Fin 16) : hexVal (hexDigit n.val) = some n := by
  fin_cases n <;> rfl

theorem hexByte_length (b : Byte) : (hexByte b).length = 2 := rfl

theorem hexEncode_length (bs : Bytes) : (hexEncode bs).length = 2 * bs.length := by
  induction bs with
  | nil => rfl
  | cons b rest ih =>
    show (hexByte b ++ hexEncode rest).length = 2 * (b :: rest).length
    rw [List.length_append, hexByte_length, ih, List.length_cons]
    omega

theorem hexDecode_hexEncode (bs : Bytes) : hexDecode (hexEncode bs) = some bs := by
  induction bs with
  | nil => rfl
  | cons b rest ih =>
    have hhi : b.val / 16 < 16 := by have := b.isLt; omega
    have hlo : b.val % 16 < 16 := Nat.mod_lt _ (by omega)
    have ehi := hexVal_hexDigit ⟨b.val / 16, hhi⟩
    have elo := hexVal_hexDigit ⟨b.val % 16, hlo⟩
    show hexDecode (hexDigit (b.val / 16) :: hexDigit (b.val % 16) :: hexEncode rest) = _
    rw [hexDecode, ehi, elo, ih]
    simp only [Option.some.injEq, List.cons.injEq, and_true]
    exact Fin.ext (show b.val / 16 * 16 + b.val % 16 = b.val by omega)

theorem save_blob_ok_hash {br : BriocheCtx} {s : Store} {b : Bytes} {opts : SaveBlobOptions}
    {s' : Store} {h' : BlobHash} (h : save_blob br s b opts = (s', .ok h')) :
    h' = BlobHash.for_content br b := by
  simp only [save_blob] at h
  split at h
  · simp at h
  · split at h <;> simp_all

theorem save_blob_from_reader_ok_hash {br : BriocheCtx} {s : Store} {input : Bytes}
    {opts : SaveBlobOptions} {s' : Store} {h' : BlobHash}
    (h : save_blob_from_reader br s input opts = (s', .ok h')) :
    h' = BlobHash.for_content br input := by
  simp only [save_blob_from_reader] at h
  split at h
  · simp at h
  · split at h <;> simp_all

theorem save_blob_from_file_ok_hash {br : BriocheCtx} {s : Store} {p : Path}
    {opts : SaveBlobOptions} {f : FileSt} {s' : Store} {tr : List FsAction} {h' : BlobHash}
    (hf : lookupFile s.files p = some f)
    (h : save_blob_from_file br s p opts = (s', tr, .ok h')) :
    h' = BlobHash.for_content br f.content := by
  simp only [save_blob_from_file] at h
  rw [hf] at h
  split at h
  · simp at h
  · split at h
    · simp_all
    · split at h
      · simp_all
      · split at h <;> simp_all

/-- C1: for every byte string `b`, `save_blob` returns the `BlobHash` that is
the BLAKE3 digest of `b` (unconditionally with default options, and on every
success in general); `save_blob_from_reader` returns the BLAKE3 digest of the
bytes read and `save_blob_from_file` the BLAKE3 digest of the input file's
contents; and the returned hash determines the on-disk path
`<home>/blobs/<hex(hash)>`. -/
theorem save_blob_content_addressed :
    (∀ br s b, (save_blob br s b {}).2 = .ok (BlobHash.for_content br b))
    ∧ (∀ br s b opts s' h', save_blob br s b opts = (s', .ok h') →
        h' = BlobHash.for_content br b)
    ∧ (∀ br s input opts s' h', save_blob_from_reader br s input opts = (s', .ok h') →
        h' = BlobHash.for_content br input)
    ∧ (∀ br s p opts f s' tr h', lookupFile s.files p = some f →
        save_blob_from_file br s p opts = (s', tr, .ok h') →
        h' = BlobHash.for_content br f.content)
    ∧ (∀ br b, BlobHash.for_content br b = ⟨br.blake3 b⟩)
    ∧ (∀ br h', local_blob_path br h' = br.home ++ ["blobs".toList, hexEncode h'.hash]) := by
  refine ⟨?_, ?_, ?_, ?_, ?_, ?_⟩
  · intro br s b
    simp only [save_blob, checkExpectedAndAlias]
    split <;> rfl
  · intro br s b opts s' h' h
    exact save_blob_ok_hash h
  · intro br s input opts s' h' h
    exact save_blob_from_reader_ok_hash h
  · intro br s p opts f s' tr h' hf h
    exact save_blob_from_file_ok_hash hf h
  · intro br b
    rfl
  · intro br h'
    rfl

/-- Witness for C1 at a concrete input: saving the byte string `[5]` in the
test context returns its digest. -/
theorem save_blob_content_addressed_witness :
    (⟨[5]⟩ : BlobHash) = BlobHash.for_content testCtx [5] :=
  save_blob_content_addressed.2.1 testCtx testStore [5] {}
    (save_blob testCtx testStore [5] {}).1 ⟨[5]⟩ rfl

/-- C7: `save_blob_from_reader` with `remove_input = true` fails immediately —
before any blob, alias or temp state is touched the state is returned
unchanged with the `ensure!` error — while with `remove_input = false`
(default options) it proceeds normally and succeeds with the content hash. -/
theorem save_blob_from_reader_rejects_remove_input :
    (∀ br s input opts, opts.remove_input = true →
      save_blob_from_reader br s input opts =
        (s, .error "cannot remove input from reader".toList))
    ∧ (∀ br s input, (save_blob_from_reader br s input {}).2 =
        .ok (BlobHash.for_content br input)) := by
  constructor
  · intro br s input opts hro
    simp [save_blob_from_reader, hro]
  · intro br s input
    rfl

/-- Witness for C7: concrete rejected call. -/
theorem save_blob_from_reader_rejects_remove_input_witness :
    save_blob_from_reader testCtx testStore [5] { remove_input := true } =
      (testStore, .error "cannot remove input from reader".toList) :=
  save_blob_from_reader_rejects_remove_input.1 testCtx testStore [5]
    { remove_input := true } rfl

/-! ## Alias-table and hash round-trip lemmas (toward C2) -/

theorem lookupAlias_upsertAlias (al : List (Str × Str)) (k v : Str) :
    lookupAlias (upsertAlias al k v) k = some v := by
  induction al with
  | nil => simp [upsertAlias, lookupAlias]
  | cons head rest ih =>
    obtain ⟨k0, v0⟩ := head
    by_cases hk : k0 = k
    · simp [upsertAlias, hk, lookupAlias]
    · simp [upsertAlias, hk, lookupAlias, ih]

theorem fromStr_toStr {bh : BlobHash} (hl : bh.hash.length = 32) :
    BlobHash.fromStr bh.toStr = .ok bh := by
  unfold BlobHash.fromStr BlobHash.toStr
  rw [hexEncode_length, hl, if_pos rfl, hexDecode_hexEncode]

theorem find_blob_found {s : Store} {hash : Hash} {v : Str}
    (hla : lookupAlias s.aliases hash.toStr = some v) :
    find_blob s hash =
      match BlobHash.fromStr v with
      | .ok bh => .ok (some bh)
      | .error e => .error e := by
  unfold find_blob
  rw [hla]

/-- Case analysis of `save_blob` when an expected hash is supplied: on a match
it succeeds and the alias table of the final state is the upsert of the
original, on a mismatch it fails leaving the state untouched. -/
theorem save_blob_expected_cases (br : BriocheCtx) (s : Store) (b : Bytes) (hsh : Hash)
    (opts : SaveBlobOptions) (hopts : opts.expected_hash = some hsh) :
    (hsh = ⟨hsh.alg, validationDigest br hsh.alg b⟩ ∧
      ∃ s', save_blob br s b opts = (s', .ok (BlobHash.for_content br b)) ∧
        s'.aliases = upsertAlias s.aliases hsh.toStr (BlobHash.for_content br b).toStr)
    ∨ (hsh ≠ ⟨hsh.alg, validationDigest br hsh.alg b⟩ ∧
      ∃ e, save_blob br s b opts = (s, .error e)) := by
  by_cases heq : hsh = ⟨hsh.alg, validationDigest br hsh.alg b⟩
  · left
    refine ⟨heq, ?_⟩
    simp only [save_blob, checkExpectedAndAlias, hopts]
    rw [if_pos heq]
    simp only []
    split
    · refine ⟨_, rfl, ?_⟩
      rfl
    · refine ⟨_, rfl, ?_⟩
      rfl
  · right
    refine ⟨heq, ?_⟩
    simp only [save_blob, checkExpectedAndAlias, hopts]
    rw [if_neg heq]
    exact ⟨_, rfl⟩

/-- C2: `save_blob` with `expected_hash = some h` succeeds exactly when `h`
equals the validation hash of the input bytes; on success `find_blob h`
returns the saved `BlobHash` (given that BLAKE3 digests are 32 bytes, so the
TEXT round trip through `blob_aliases` parses back); on a mismatch it fails
with the state unchanged — no alias row and no blob file. -/
theorem save_blob_expected_hash_spec :
    ∀ br s b hsh opts, opts.expected_hash = some hsh →
      ((∃ s' bh, save_blob br s b opts = (s', .ok bh)) ↔
        hsh = ⟨hsh.alg, validationDigest br hsh.alg b⟩)
      ∧ (∀ s' bh, save_blob br s b opts = (s', .ok bh) →
          (br.blake3 b).length = 32 →
          find_blob s' hsh = .ok (some bh))
      ∧ (hsh ≠ ⟨hsh.alg, validationDigest br hsh.alg b⟩ →
          ∃ e, save_blob br s b opts = (s, .error e)) := by
  intro br s b hsh opts hopts
  refine ⟨⟨?_, ?_⟩, ?_, ?_⟩
  · rintro ⟨s', bh, hsb⟩
    rcases save_blob_expected_cases br s b hsh opts hopts with ⟨heq, _⟩ | ⟨_, e, herr⟩
    · exact heq
    · rw [hsb] at herr
      simp at herr
  · intro heq
    rcases save_blob_expected_cases br s b hsh opts hopts with ⟨_, s', hok, _⟩ | ⟨hne, _⟩
    · exact ⟨s', _, hok⟩
    · exact absurd heq hne
  · intro s' bh hsb hl
    rcases save_blob_expected_cases br s b hsh opts hopts with ⟨_, s'', hok, hal⟩ | ⟨_, e, herr⟩
    · rw [hok] at hsb
      have hs : s'' = s' := congrArg Prod.fst hsb
      have hbh : bh = BlobHash.for_content br b := by
        have h2 := congrArg Prod.snd hsb
        simpa using h2.symm
      rw [← hs]
      have hl' : (BlobHash.for_content br b).hash.length = 32 := hl
      have hla : lookupAlias s''.aliases hsh.toStr =
          some (BlobHash.for_content br b).toStr := by
        rw [hal]
        exact lookupAlias_upsertAlias _ _ _
      rw [find_blob_found hla, fromStr_toStr hl', hbh]
    · rw [hsb] at herr
      simp at herr
  · intro hne
    rcases save_blob_expected_cases br s b hsh opts hopts with ⟨heq, _⟩ | ⟨_, e, herr⟩
    · exact absurd heq hne
    · exact ⟨e, herr⟩

/-- Witness for C2 at a concrete input: saving 32 bytes of `5` with the
matching expected SHA-256 succeeds and `find_blob` then returns the blob
hash. -/
theorem save_blob_expected_hash_spec_witness :
    find_blob (save_blob testCtx testStore (List.replicate 32 5)
        { expected_hash := some ⟨.sha256, List.replicate 32 5⟩ }).1
      ⟨.sha256, List.replicate 32 5⟩ = .ok (some ⟨List.replicate 32 5⟩) :=
  (save_blob_expected_hash_spec testCtx testStore (List.replicate 32 5)
      ⟨.sha256, List.replicate 32 5⟩
      { expected_hash := some ⟨.sha256, List.replicate 32 5⟩ } rfl).2.1
    (save_blob testCtx testStore (List.replicate 32 5)
      { expected_hash := some ⟨.sha256, List.replicate 32 5⟩ }).1
    ⟨List.replicate 32 5⟩ rfl rfl

/-! ## Behavior when the target blob file already exists (C4) -/

theorem lookupFile_setFile_self (files : List (Path × FileSt)) (p : Path) (f : FileSt) :
    lookupFile (setFile files p f) p = some f := by
  induction files with
  | nil => simp [setFile, lookupFile]
  | cons head rest ih =>
    obtain ⟨q, g⟩ := head
    by_cases hq : q = p
    · simp [setFile, hq, lookupFile]
    · simp [setFile, hq, lookupFile, ih]

theorem lookupFile_setFile_other (files : List (Path × FileSt)) (p q : Path) (f : FileSt)
    (h : p ≠ q) : lookupFile (setFile files p f) q = lookupFile files q := by
  induction files with
  | nil => simp [setFile, lookupFile, h]
  | cons head rest ih =>
    obtain ⟨q0, g⟩ := head
    by_cases hq : q0 = p
    · subst hq
      simp [setFile, lookupFile, h]
    · simp [setFile, hq, lookupFile, ih]

/-- Unfolding of `save_blob` with default options. -/
theorem save_blob_default_eq (br : BriocheCtx) (s : Store) (b : Bytes) :
    save_blob br s b {} =
      if (lookupFile s.files (local_blob_path br (BlobHash.for_content br b))).isSome then
        (s, .ok (BlobHash.for_content br b))
      else
        (Store.mk (setFile s.files (local_blob_path br (BlobHash.for_content br b))
            (canonicalFile b)) s.aliases,
          .ok (BlobHash.for_content br b)) := rfl

/-- Counterexample to C4: `save_blob` on a pre-existing target returns without
refreshing, so the blob file keeps mode `0o644` and mtime `0` instead of the
canonical `0o444` and epoch. -/
theorem save_blob_existing_not_refreshed :
    lookupFile ((save_blob testCtx preStore [5] {}).1).files
        (local_blob_path testCtx ⟨[5]⟩) = some ⟨[5], 0o644, 0, 1⟩
    ∧ 0o644 ≠ blob_permissions ∧ (0 : Nat) ≠ briocheEpoch := by
  decide

/-- C4 (amended): only `save_blob_from_file` refreshes the permissions and
mtime of an already-existing blob file. `save_blob` returns immediately,
leaving the existing file exactly as it was; `save_blob_from_reader` always
writes a fresh canonical file over the target path. -/
theorem save_existing_blob_behavior :
    (∀ br s b, (lookupFile s.files
          (local_blob_path br (BlobHash.for_content br b))).isSome →
        save_blob br s b {} = (s, .ok (BlobHash.for_content br b)))
    ∧ (∀ br s b, (save_blob_from_reader br s b {}).1.files =
        setFile s.files (local_blob_path br (BlobHash.for_content br b))
          (canonicalFile b))
    ∧ (∀ br s p f ex, lookupFile s.files p = some f →
        lookupFile s.files (local_blob_path br (BlobHash.for_content br f.content)) =
          some ex →
        save_blob_from_file br s p {} =
          (Store.mk (setFile s.files
              (local_blob_path br (BlobHash.for_content br f.content))
              (FileSt.mk ex.content blob_permissions briocheEpoch ex.nlink)) s.aliases,
            [FsAction.chmod (local_blob_path br (BlobHash.for_content br f.content))
              blob_permissions,
             FsAction.setMtime (local_blob_path br (BlobHash.for_content br f.content))
              briocheEpoch],
            .ok (BlobHash.for_content br f.content))) := by
  refine ⟨?_, ?_, ?_⟩
  · intro br s b hex
    rw [save_blob_default_eq, if_pos hex]
  · intro br s b
    rfl
  · intro br s p f ex hf hex
    simp only [save_blob_from_file, checkExpectedAndAlias]
    rw [hf]
    simp only []
    rw [hex]
    rfl

/-- Witness for C4's amended statement: refreshing the pre-existing blob for
content `[5]` via `save_blob_from_file` with the blob file as input. -/
theorem save_existing_blob_behavior_witness :
    save_blob testCtx preStore [5] {} = (preStore, .ok (BlobHash.for_content testCtx [5])) :=
  save_existing_blob_behavior.1 testCtx preStore [5] (by decide)

/-! ## Unfoldings of `save_blob_from_file` (C3, C5, C8) -/

/-- Run of `save_blob_from_file` with default options on an existing input. -/
theorem save_blob_from_file_default_eq (br : BriocheCtx) (s : Store) (p : Path) (f : FileSt)
    (hf : lookupFile s.files p = some f) :
    save_blob_from_file br s p {} =
      match lookupFile s.files (local_blob_path br (BlobHash.for_content br f.content)) with
      | some existing =>
        (Store.mk (setFile s.files (local_blob_path br (BlobHash.for_content br f.content))
            (FileSt.mk existing.content blob_permissions briocheEpoch existing.nlink))
            s.aliases,
          [FsAction.chmod (local_blob_path br (BlobHash.for_content br f.content))
            blob_permissions,
           FsAction.setMtime (local_blob_path br (BlobHash.for_content br f.content))
            briocheEpoch],
          .ok (BlobHash.for_content br f.content))
      | none =>
        (Store.mk (setFile (setFile s.files
              (local_blob_path br (BlobHash.for_content br f.content))
              (FileSt.mk f.content blob_permissions br.now 1)) p
            (FileSt.mk f.content f.mode briocheEpoch f.nlink)) s.aliases,
          [FsAction.copyFile p (local_blob_path br (BlobHash.for_content br f.content)),
           FsAction.chmod (local_blob_path br (BlobHash.for_content br f.content))
            blob_permissions,
           FsAction.setMtime p briocheEpoch],
          .ok (BlobHash.for_content br f.content)) := by
  simp only [save_blob_from_file, checkExpectedAndAlias]
  rw [hf]
  simp only []
  cases lookupFile s.files (local_blob_path br (BlobHash.for_content br f.content)) <;> rfl

/-- Run of `save_blob_from_file` with `remove_input = true` on an existing
input. -/
theorem save_blob_from_file_remove_eq (br : BriocheCtx) (s : Store) (p : Path) (f : FileSt)
    (hf : lookupFile s.files p = some f) :
    save_blob_from_file br s p { remove_input := true } =
      match lookupFile s.files (local_blob_path br (BlobHash.for_content br f.content)) with
      | some existing =>
        (Store.mk (setFile (dropFile s.files p)
            (local_blob_path br (BlobHash.for_content br f.content))
            (FileSt.mk existing.content blob_permissions briocheEpoch existing.nlink))
            s.aliases,
          [FsAction.removeInput p,
           FsAction.chmod (local_blob_path br (BlobHash.for_content br f.content))
            blob_permissions,
           FsAction.setMtime (local_blob_path br (BlobHash.for_content br f.content))
            briocheEpoch],
          .ok (BlobHash.for_content br f.content))
      | none =>
        if is_file_exclusive f then
          (Store.mk (setFile (dropFile s.files p)
              (local_blob_path br (BlobHash.for_content br f.content))
              (FileSt.mk f.content blob_permissions briocheEpoch f.nlink)) s.aliases,
            [FsAction.chmod p blob_permissions,
             FsAction.setMtime p briocheEpoch,
             FsAction.moveFile p (local_blob_path br (BlobHash.for_content br f.content))],
            .ok (BlobHash.for_content br f.content))
        else
          (Store.mk (dropFile (setFile (setFile s.files
                (local_blob_path br (BlobHash.for_content br f.content))
                (FileSt.mk f.content blob_permissions br.now 1)) p
              (FileSt.mk f.content f.mode briocheEpoch f.nlink)) p) s.aliases,
            [FsAction.copyFile p (local_blob_path br (BlobHash.for_content br f.content)),
             FsAction.chmod (local_blob_path br (BlobHash.for_content br f.content))
              blob_permissions,
             FsAction.setMtime p briocheEpoch,
             FsAction.removeInput p],
            .ok (BlobHash.for_content br f.content)) := by
  simp only [save_blob_from_file, checkExpectedAndAlias]
  rw [hf]
  simp only []
  cases lookupFile s.files (local_blob_path br (BlobHash.for_content br f.content))
  · cases hexc : is_file_exclusive f <;> simp only [hexc] <;> rfl
  · rfl

/-- C5: saving the same byte string `b` twice yields the same `BlobHash` both
times and leaves the blob file byte-identical to `b`; each save variant, on a
store satisfying the content-addressing invariant at `b`, succeeds with
`BLAKE3(b)`, re-establishes the invariant, and leaves content `b` at the blob
path — so repeated saves in any combination never corrupt or remove the
blob. -/
theorem blob_idempotence :
    (∀ br s b, goodAt br s b →
      (save_blob br s b {}).2 = .ok (BlobHash.for_content br b) ∧
      goodAt br (save_blob br s b {}).1 b ∧
      ∃ f, lookupFile (save_blob br s b {}).1.files
          (local_blob_path br (BlobHash.for_content br b)) = some f ∧ f.content = b)
    ∧ (∀ br s b,
        (save_blob_from_reader br s b {}).2 = .ok (BlobHash.for_content br b) ∧
        goodAt br (save_blob_from_reader br s b {}).1 b ∧
        lookupFile (save_blob_from_reader br s b {}).1.files
          (local_blob_path br (BlobHash.for_content br b)) = some (canonicalFile b))
    ∧ (∀ br s p f, lookupFile s.files p = some f → goodAt br s f.content →
        p ≠ local_blob_path br (BlobHash.for_content br f.content) →
        (save_blob_from_file br s p {}).2.2 = .ok (BlobHash.for_content br f.content) ∧
        goodAt br (save_blob_from_file br s p {}).1 f.content ∧
        ∃ g, lookupFile (save_blob_from_file br s p {}).1.files
            (local_blob_path br (BlobHash.for_content br f.content)) = some g ∧
          g.content = f.content)
    ∧ (∀ br s b, goodAt br s b →
        (save_blob br s b {}).2 = .ok (BlobHash.for_content br b) ∧
        (save_blob br (save_blob br s b {}).1 b {}).2 = .ok (BlobHash.for_content br b) ∧
        ∃ f, lookupFile (save_blob br (save_blob br s b {}).1 b {}).1.files
            (local_blob_path br (BlobHash.for_content br b)) = some f ∧ f.content = b) := by
  have hA : ∀ br s b, goodAt br s b →
      (save_blob br s b {}).2 = .ok (BlobHash.for_content br b) ∧
      goodAt br (save_blob br s b {}).1 b ∧
      ∃ f, lookupFile (save_blob br s b {}).1.files
          (local_blob_path br (BlobHash.for_content br b)) = some f ∧ f.content = b := by
    intro br s b hgood
    by_cases hl : (lookupFile s.files (local_blob_path br (BlobHash.for_content br b))).isSome
    · rw [save_blob_default_eq, if_pos hl]
      obtain ⟨f, hf⟩ := Option.isSome_iff_exists.mp hl
      exact ⟨rfl, hgood, f, hf, hgood f hf⟩
    · rw [save_blob_default_eq, if_neg hl]
      refine ⟨rfl, ?_, ?_⟩
      · intro g hg
        simp only at hg
        rw [lookupFile_setFile_self] at hg
        cases hg
        rfl
      · exact ⟨canonicalFile b, lookupFile_setFile_self .., rfl⟩
  refine ⟨hA, ?_, ?_, ?_⟩
  · intro br s b
    refine ⟨rfl, ?_, ?_⟩
    · intro g hg
      have : (save_blob_from_reader br s b {}).1.files =
          setFile s.files (local_blob_path br (BlobHash.for_content br b))
            (canonicalFile b) := rfl
      rw [this, lookupFile_setFile_self] at hg
      cases hg
      rfl
    · have : (save_blob_from_reader br s b {}).1.files =
          setFile s.files (local_blob_path br (BlobHash.for_content br b))
            (canonicalFile b) := rfl
      rw [this, lookupFile_setFile_self]
  · intro br s p f hf hgood hne
    rw [save_blob_from_file_default_eq br s p f hf]
    cases hl : lookupFile s.files (local_blob_path br (BlobHash.for_content br f.content)) with
    | some ex =>
      have hex : ex.content = f.content := hgood ex hl
      refine ⟨rfl, ?_, ?_⟩
      · intro g hg
        simp only at hg
        rw [lookupFile_setFile_self] at hg
        cases hg
        exact hex
      · exact ⟨_, lookupFile_setFile_self .., hex⟩
    | none =>
      refine ⟨rfl, ?_, ?_⟩
      · intro g hg
        simp only at hg
        rw [lookupFile_setFile_other _ _ _ _ hne, lookupFile_setFile_self] at hg
        cases hg
        rfl
      · refine ⟨FileSt.mk f.content blob_permissions br.now 1, ?_, rfl⟩
        simp only
        rw [lookupFile_setFile_other _ _ _ _ hne, lookupFile_setFile_self]
  · intro br s b hgood
    obtain ⟨h1, hg1, _⟩ := hA br s b hgood
    obtain ⟨h2, _, hpost⟩ := hA br (save_blob br s b {}).1 b hg1
    exact ⟨h1, h2, hpost⟩

/-- Witness for C5: saving `[5]` twice on the empty store succeeds both times
with the same hash. -/
theorem blob_idempotence_witness :
    (save_blob testCtx testStore [5] {}).2 = .ok (BlobHash.for_content testCtx [5]) ∧
    (save_blob testCtx (save_blob testCtx testStore [5] {}).1 [5] {}).2 =
      .ok (BlobHash.for_content testCtx [5]) :=
  have h := blob_idempotence.2.2.2 testCtx testStore [5]
    (fun f h => by simp [testStore, lookupFile] at h)
  ⟨h.1, h.2.1⟩

/-! ## The misdirected mtime in the copy branch (C3) -/

/-- C3 shows a code bug: running `save_blob_from_file` in the copy branch (no
`remove_input`, blob absent) records the epoch-mtime action against the input
path instead of the blob path; afterwards the blob file's mtime is the copy
time (the clock, here `1`), not the epoch, while the input file received the
epoch mtime. The theorem evaluates the code at the failing input. -/
theorem save_blob_from_file_copy_mtime_bug :
    (save_blob_from_file testCtx inStore inPath {}).2.1 =
      [FsAction.copyFile inPath (local_blob_path testCtx ⟨[5]⟩),
       FsAction.chmod (local_blob_path testCtx ⟨[5]⟩) blob_permissions,
       FsAction.setMtime inPath briocheEpoch]
    ∧ lookupFile ((save_blob_from_file testCtx inStore inPath {}).1).files
        (local_blob_path testCtx ⟨[5]⟩) = some ⟨[5], blob_permissions, 1, 1⟩
    ∧ (1 : Nat) ≠ briocheEpoch
    ∧ lookupFile ((save_blob_from_file testCtx inStore inPath {}).1).files inPath =
        some ⟨[5], 0o644, briocheEpoch, 1⟩ := by
  decide

/-! ## Move/copy discipline of `save_blob_from_file` (C8) -/

/-- Counterexample to C8 as stated: with `remove_input = true` and an input
whose `nlink` is `2`, but whose blob file already exists, nothing is copied at
all — the trace is remove-input plus the refresh of the existing blob. -/
theorem save_blob_from_file_hardlink_no_copy :
    (save_blob_from_file testCtx hardStore inPath { remove_input := true }).2.1 =
      [FsAction.removeInput inPath,
       FsAction.chmod (local_blob_path testCtx ⟨[5]⟩) blob_permissions,
       FsAction.setMtime (local_blob_path testCtx ⟨[5]⟩) briocheEpoch]
    ∧ lookupFile hardStore.files inPath = some ⟨[5], 0o600, 7, 2⟩ := by
  decide

/-- C8 (amended): `save_blob_from_file` chmods the input in place and moves it
to the blob path only when `remove_input` is set and the input has
`nlink == 1`; when `remove_input` is set but the input has other hardlinks and
the blob file does not already exist, the input's permissions are untouched
(no chmod of the input appears in the trace) and the content is copied
instead; when the blob file already exists nothing is copied or moved. -/
theorem save_blob_from_file_exclusive_move :
    (∀ br s p f ro s' tr r dst, lookupFile s.files p = some f →
        save_blob_from_file br s p ⟨none, ro⟩ = (s', tr, r) →
        FsAction.moveFile p dst ∈ tr → ro = true ∧ f.nlink = 1)
    ∧ (∀ br s p f ro s' tr r, lookupFile s.files p = some f →
        p ≠ local_blob_path br (BlobHash.for_content br f.content) →
        save_blob_from_file br s p ⟨none, ro⟩ = (s', tr, r) →
        FsAction.chmod p blob_permissions ∈ tr → ro = true ∧ f.nlink = 1)
    ∧ (∀ br s p f, lookupFile s.files p = some f → f.nlink ≠ 1 →
        lookupFile s.files (local_blob_path br (BlobHash.for_content br f.content)) = none →
        FsAction.copyFile p (local_blob_path br (BlobHash.for_content br f.content)) ∈
          (save_blob_from_file br s p ⟨none, true⟩).2.1 ∧
        FsAction.chmod p blob_permissions ∉
          (save_blob_from_file br s p ⟨none, true⟩).2.1 ∧
        FsAction.moveFile p (local_blob_path br (BlobHash.for_content br f.content)) ∉
          (save_blob_from_file br s p ⟨none, true⟩).2.1) := by
  refine ⟨?_, ?_, ?_⟩
  · intro br s p f ro s' tr r dst hf hsave hmem
    cases ro with
    | false =>
      rw [save_blob_from_file_default_eq br s p f hf] at hsave
      cases hlt : lookupFile s.files
          (local_blob_path br (BlobHash.for_content br f.content)) with
      | some ex =>
        rw [hlt] at hsave
        have htr := congrArg (fun x => x.2.1) hsave
        simp only at htr
        rw [← htr] at hmem
        simp at hmem
      | none =>
        rw [hlt] at hsave
        have htr := congrArg (fun x => x.2.1) hsave
        simp only at htr
        rw [← htr] at hmem
        simp at hmem
    | true =>
      rw [save_blob_from_file_remove_eq br s p f hf] at hsave
      cases hlt : lookupFile s.files
          (local_blob_path br (BlobHash.for_content br f.content)) with
      | some ex =>
        rw [hlt] at hsave
        have htr := congrArg (fun x => x.2.1) hsave
        simp only at htr
        rw [← htr] at hmem
        simp at hmem
      | none =>
        rw [hlt] at hsave
        cases hexc : is_file_exclusive f with
        | true =>
          refine ⟨rfl, ?_⟩
          simpa [is_file_exclusive] using hexc
        | false =>
          rw [hexc] at hsave
          simp only [Bool.false_eq_true, if_false] at hsave
          have htr := congrArg (fun x => x.2.1) hsave
          simp only at htr
          rw [← htr] at hmem
          simp at hmem
  · intro br s p f ro s' tr r hf hne hsave hmem
    cases ro with
    | false =>
      rw [save_blob_from_file_default_eq br s p f hf] at hsave
      cases hlt : lookupFile s.files
          (local_blob_path br (BlobHash.for_content br f.content)) with
      | some ex =>
        rw [hlt] at hsave
        have htr := congrArg (fun x => x.2.1) hsave
        simp only at htr
        rw [← htr] at hmem
        simp at hmem
        exact absurd hmem hne
      | none =>
        rw [hlt] at hsave
        have htr := congrArg (fun x => x.2.1) hsave
        simp only at htr
        rw [← htr] at hmem
        simp at hmem
        exact absurd hmem hne
    | true =>
      rw [save_blob_from_file_remove_eq br s p f hf] at hsave
      cases hlt : lookupFile s.files
          (local_blob_path br (BlobHash.for_content br f.content)) with
      | some ex =>
        rw [hlt] at hsave
        have htr := congrArg (fun x => x.2.1) hsave
        simp only at htr
        rw [← htr] at hmem
        simp at hmem
        exact absurd hmem hne
      | none =>
        rw [hlt] at hsave
        cases hexc : is_file_exclusive f with
        | true =>
          refine ⟨rfl, ?_⟩
          simpa [is_file_exclusive] using hexc
        | false =>
          rw [hexc] at hsave
          simp only [Bool.false_eq_true, if_false] at hsave
          have htr := congrArg (fun x => x.2.1) hsave
          simp only at htr
          rw [← htr] at hmem
          simp at hmem
          exact absurd hmem hne
  · intro br s p f hf hnl hlt
    have hp : p ≠ local_blob_path br (BlobHash.for_content br f.content) := by
      intro hp
      rw [hp, hlt] at hf
      cases hf
    have hexc : is_file_exclusive f = false := by
      simp [is_file_exclusive, hnl]
    rw [save_blob_from_file_remove_eq br s p f hf, hlt]
    simp only [hexc, Bool.false_eq_true, if_false]
    refine ⟨by simp, ?_, ?_⟩
    · intro hmem
      simp at hmem
      exact hp hmem
    · intro hmem
      simp at hmem

/-- Witness for C8's amended statement: with `remove_input = true`, an input
with two hardlinks and no existing blob, the content is copied. -/
theorem save_blob_from_file_exclusive_move_witness :
    FsAction.copyFile inPath (local_blob_path testCtx ⟨[5]⟩) ∈
      (save_blob_from_file testCtx linkStore inPath ⟨none, true⟩).2.1 :=
  (save_blob_from_file_exclusive_move.2.2 testCtx linkStore inPath ⟨[5], 0o600, 7, 2⟩
    (by decide) (by decide) (by decide)).1

/-! ## Registry retrieval (C6) -/

/-- Counterexample to C6: the registry in `testCtx` answers every request with
the bytes `[7]`; asking `blob_path` for the blob named `[9]` stores `[7]`
under the name of `[9]` and reports success, although the stored content's
BLAKE3 digest is not `[9]` — no verification happens. -/
theorem blob_path_no_verification :
    lookupFile ((blob_path testCtx testStore ⟨[9]⟩).1).files
        (local_blob_path testCtx ⟨[9]⟩) = some ⟨[7], blob_permissions, briocheEpoch, 1⟩
    ∧ testCtx.blake3 [7] ≠ [9]
    ∧ (blob_path testCtx testStore ⟨[9]⟩).2 = .ok (local_blob_path testCtx ⟨[9]⟩) :=
  ⟨by decide, by decide, rfl⟩

/-- C6 (amended): if the blob is present locally `blob_path` returns its path
unchanged; if it is absent, `blob_path` fetches from the registry and installs
exactly the registry-returned bytes at `<home>/blobs/<hex(hash)>` with the
canonical permissions and mtime, without verifying them against the requested
`BlobHash` — the stored content hashes to the requested name only if the
registry returned the right bytes. -/
theorem blob_path_fetches_registry_bytes :
    (∀ br s bh, (lookupFile s.files (local_blob_path br bh)).isSome →
        blob_path br s bh = (s, .ok (local_blob_path br bh)))
    ∧ (∀ br s bh bytes, lookupFile s.files (local_blob_path br bh) = none →
        br.getBlob bh.hash = .ok bytes →
        blob_path br s bh =
          (Store.mk (setFile s.files (local_blob_path br bh) (canonicalFile bytes))
            s.aliases, .ok (local_blob_path br bh))) := by
  constructor
  · intro br s bh hs
    simp only [blob_path]
    rw [if_pos hs]
  · intro br s bh bytes hn hok
    simp only [blob_path]
    rw [hn]
    simp only [Option.isSome_none, Bool.false_eq_true, if_false]
    rw [hok]
    rfl

/-- Witness for C6's amended statement: fetching blob `[9]` from the test
registry stores the registry's bytes `[7]`. -/
theorem blob_path_fetches_registry_bytes_witness :
    blob_path testCtx testStore ⟨[9]⟩ =
      (Store.mk (setFile testStore.files (local_blob_path testCtx ⟨[9]⟩)
        (canonicalFile [7])) testStore.aliases, .ok (local_blob_path testCtx ⟨[9]⟩)) :=
  blob_path_fetches_registry_bytes.2 testCtx testStore ⟨[9]⟩ [7] (by decide) rfl

/-! ## Bounded project resolution (C9) -/

/-- Unfolding of `resolve_project_depth` once canonicalization and the
definition read have succeeded. -/
theorem resolve_project_depth_unfold (br : BriocheCtx) (fs : ProjFs) (path cpath : Path)
    (pd : ProjectDefinition) (depth : Nat) (hc : fs.canon path = some cpath)
    (hr : fs.readDef cpath = some pd) :
    resolve_project_depth br fs path depth =
      match resolveDeps br fs cpath pd.dependencies depth with
      | .error e => .error e
      | .ok deps => .ok (Project.mk cpath deps) := by
  rw [resolve_project_depth, hc]
  dsimp only
  rw [hr]

/-- In the self-cyclic world `cycFs`, resolution at any remaining budget `d`
fails, and the depth-exceeded message is a suffix of the error (each level
wraps it in a context layer). -/
theorem resolve_cycle_depth (d : Nat) :
    ∃ m, resolve_project_depth testCtx cycFs [['a']] d = .error m ∧
      depthExceededMsg <:+ m := by
  have hname : nameOk ['a'] = true := by decide
  induction d with
  | zero =>
    refine ⟨depthExceededMsg, ?_, List.suffix_refl _⟩
    rw [resolve_project_depth_unfold testCtx cycFs [['a']] [['a']]
      ⟨[(['a'], DependencyDefinition.path [])]⟩ 0 rfl rfl]
    have hd : resolveDeps testCtx cycFs [['a']]
        [(['a'], DependencyDefinition.path [])] 0 = .error depthExceededMsg := by
      rw [resolveDeps]
      simp [hname]
    rw [hd]
  | succ d ih =>
    obtain ⟨m, hm, hsuf⟩ := ih
    refine ⟨withCtx "failed to resolve path dependency".toList m, ?_, ?_⟩
    · rw [resolve_project_depth_unfold testCtx cycFs [['a']] [['a']]
        ⟨[(['a'], DependencyDefinition.path [])]⟩ (d + 1) rfl rfl]
      have hd : resolveDeps testCtx cycFs [['a']]
          [(['a'], DependencyDefinition.path [])] (d + 1) =
          .error (withCtx "failed to resolve path dependency".toList m) := by
        rw [resolveDeps]
        dsimp only
        simp only [hname, if_true]
        simp only [List.append_nil]
        rw [hm]
      rw [hd]
    · exact hsuf.trans ((List.suffix_append (": ".toList) m).trans
        (List.suffix_append "failed to resolve path dependency".toList (": ".toList ++ m)))

/-- C9: `resolve_project` is total (it is a function in this embedding) and
runs `resolve_project_depth` with a recursion budget of 100; each dependency
edge decrements the budget, and when the budget would go below zero the
per-edge `checked_sub` fails with the depth-exceeded error — in particular on
a cyclic path-dependency graph resolution terminates with an error whose
chain bottoms out in the depth-exceeded message. -/
theorem resolve_project_recursion_bounded :
    (∀ br fs path, resolve_project br fs path = resolve_project_depth br fs path 100)
    ∧ (∀ br fs base name dd rest, nameOk name = true →
        resolveDeps br fs base ((name, dd) :: rest) 0 = .error depthExceededMsg)
    ∧ (∃ m, resolve_project testCtx cycFs [['a']] = .error m ∧
        depthExceededMsg <:+ m) := by
  refine ⟨fun br fs path => rfl, ?_, ?_⟩
  · intro br fs base name dd rest hname
    rw [resolveDeps]
    simp [hname]
  · exact resolve_cycle_depth 100

/-- Witness for C9: at budget `0` a single well-named dependency immediately
yields the depth-exceeded error. -/
theorem resolve_project_recursion_bounded_witness :
    resolveDeps testCtx cycFs [] [(['a'], DependencyDefinition.path [])] 0 =
      .error depthExceededMsg :=
  resolve_project_recursion_bounded.2.1 testCtx cycFs [] ['a']
    (DependencyDefinition.path []) [] (by decide)

/-! ## Locating the project root (C10) -/

theorem find_project_root_nil (ex : Path → Bool) :
    find_project_root ex [] =
      if ex ([] ++ ["brioche.toml".toList]) then .ok []
      else .error "project root not found".toList := by
  rw [find_project_root]

theorem find_project_root_step (ex : Path → Bool) (p : Path) (hp : p ≠ []) :
    find_project_root ex p =
      if ex (p ++ ["brioche.toml".toList]) then .ok p
      else find_project_root ex p.dropLast := by
  cases p with
  | nil => exact absurd rfl hp
  | cons a l => rw [find_project_root]

/-- C10: `find_project_root` returns the nearest ancestor of `path` (itself
included) containing `brioche.toml` — i.e. the longest prefix `p.take k` whose
`brioche.toml` exists, every strictly longer prefix lacking it — walking one
parent at a time, and fails with the not-found error exactly when no ancestor
up to the root contains `brioche.toml`. -/
theorem find_project_root_spec :
    ∀ (ex : Path → Bool) (p : Path),
      (∀ r, find_project_root ex p = .ok r ↔
        (∃ k, k ≤ p.length ∧ r = p.take k ∧
          ex (p.take k ++ ["brioche.toml".toList]) = true ∧
          ∀ j, k < j → j ≤ p.length → ex (p.take j ++ ["brioche.toml".toList]) = false))
      ∧ (find_project_root ex p = .error "project root not found".toList ↔
          ∀ j, j ≤ p.length → ex (p.take j ++ ["brioche.toml".toList]) = false) := by
  intro ex p
  induction p using List.reverseRecOn with
  | nil =>
    rw [find_project_root_nil]
    by_cases hx : ex ([] ++ ["brioche.toml".toList])
    · rw [if_pos hx]
      constructor
      · intro r
        constructor
        · intro h
          cases h
          exact ⟨0, Nat.le_refl 0, rfl, hx, fun j hj1 hj2 => by simp at hj2; omega⟩
        · rintro ⟨k, hk, hr, hex, hmax⟩
          have hk0 : k = 0 := Nat.le_zero.mp hk
          subst hk0
          rw [hr]
          rfl
      · constructor
        · intro h
          simp at h
        · intro hall
          exact absurd (hall 0 (Nat.le_refl 0)) (by simpa using hx)
    · rw [if_neg hx]
      constructor
      · intro r
        constructor
        · intro h
          simp at h
        · rintro ⟨k, hk, hr, hex, hmax⟩
          have hk0 : k = 0 := Nat.le_zero.mp hk
          subst hk0
          exact absurd hex (by simpa using hx)
      · constructor
        · intro _ j hj
          have hj0 : j = 0 := Nat.le_zero.mp hj
          subst hj0
          simpa using hx
        · intro _
          rfl
  | append_singleton xs x ih =>
    rw [find_project_root_step ex (xs ++ [x]) (by simp), List.dropLast_concat]
    by_cases hx : ex ((xs ++ [x]) ++ ["brioche.toml".toList])
    · rw [if_pos hx]
      constructor
      · intro r
        constructor
        · intro h
          cases h
          refine ⟨(xs ++ [x]).length, Nat.le_refl _,
            (List.take_of_length_le (Nat.le_refl _)).symm, ?_, ?_⟩
          · rw [List.take_of_length_le (Nat.le_refl _)]
            exact hx
          · intro j hj1 hj2
            omega
        · rintro ⟨k, hk, hr, hex, hmax⟩
          rcases Nat.eq_or_lt_of_le hk with hkn | hklt
          · rw [hkn, List.take_of_length_le (Nat.le_refl _)] at hr
            rw [hr]
          · have hfull := hmax (xs ++ [x]).length hklt (Nat.le_refl _)
            rw [List.take_of_length_le (Nat.le_refl _)] at hfull
            rw [hfull] at hx
            cases hx
      · constructor
        · intro h
          simp at h
        · intro hall
          have hfull := hall (xs ++ [x]).length (Nat.le_refl _)
          rw [List.take_of_length_le (Nat.le_refl _)] at hfull
          rw [hfull] at hx
          cases hx
    · rw [if_neg hx]
      have hxf : ex ((xs ++ [x]) ++ ["brioche.toml".toList]) = false := by
        simpa using hx
      obtain ⟨ihok, iherr⟩ := ih
      constructor
      · intro r
        rw [ihok r]
        constructor
        · rintro ⟨k, hk, hr, hex, hmax⟩
          refine ⟨k, by simp; omega, ?_, ?_, ?_⟩
          · rw [List.take_append_of_le_length hk]
            exact hr
          · rw [List.take_append_of_le_length hk]
            exact hex
          · intro j hj1 hj2
            rcases Nat.lt_or_ge j (xs.length + 1) with hlt | hge
            · have hjle : j ≤ xs.length := by omega
              rw [List.take_append_of_le_length hjle]
              exact hmax j hj1 hjle
            · have hj : j = (xs ++ [x]).length := by
                simp at hj2 ⊢
                omega
              rw [hj, List.take_of_length_le (Nat.le_refl _)]
              exact hxf
        · rintro ⟨k, hk, hr, hex, hmax⟩
          have hkx : k ≤ xs.length := by
            by_contra hgt
            have hk' : k = (xs ++ [x]).length := by
              simp at hk ⊢
              omega
            rw [hk', List.take_of_length_le (Nat.le_refl _)] at hex
            rw [hex] at hxf
            cases hxf
          refine ⟨k, hkx, ?_, ?_, ?_⟩
          · rw [List.take_append_of_le_length hkx] at hr
            exact hr
          · rw [List.take_append_of_le_length hkx] at hex
            exact hex
          · intro j hj1 hj2
            have hmj := hmax j hj1 (by simp; omega)
            rw [List.take_append_of_le_length hj2] at hmj
            exact hmj
      · rw [iherr]
        constructor
        · intro hall j hj
          rcases Nat.lt_or_ge j (xs.length + 1) with hlt | hge
          · have hjle : j ≤ xs.length := by omega
            rw [List.take_append_of_le_length hjle]
            exact hall j hjle
          · have hj' : j = (xs ++ [x]).length := by
              simp at hj ⊢
              omega
            rw [hj', List.take_of_length_le (Nat.le_refl _)]
            exact hxf
        · intro hall j hj
          have hmj := hall j (by simp; omega)
          rw [List.take_append_of_le_length hj] at hmj
          exact hmj

/-- Witness for C10 at a concrete input: from `a/b` with `brioche.toml`
present only at `a`, the root found is `a`. -/
theorem find_project_root_spec_witness :
    find_project_root (fun q => decide (q = [['a'], "brioche.toml".toList]))
      [['a'], ['b']] = .ok [['a']] :=
  ((find_project_root_spec (fun q => decide (q = [['a'], "brioche.toml".toList]))
      [['a'], ['b']]).1 [['a']]).mpr
    ⟨1, by decide, by decide, by decide, fun j hj1 hj2 => by
      simp at hj2
      have h2 : j = 2 := by omega
      subst h2
      decide⟩

end Brioche
